import Mathlib

/-!
Verification of the NIHARA live-audio subsystem (src/App.tsx).

The definitions below are a shallow embedding of the audio codec
(`encode`, `decode`, `createBlobFromAudio`, `decodeAudioData`), the
live-session message handler (`onmessage` with its playback scheduler,
tool-call dispatch and transcript aggregation), and the companion-state
update `processAiInteraction`, translated directly from src/App.tsx.
Audio samples and clock times are modelled as rationals; JavaScript
16-bit wrap-around and truncation are made explicit.
-/

namespace Nihara

/-! ## Base64 (App.tsx lines 14-32: `encode` wraps btoa, `decode` wraps atob).
Bytes are naturals below 256; the base64 text is a list of characters. -/

/-- The standard base64 alphabet used by `btoa`/`atob`. -/
def b64Alphabet : List Char :=
  ['A','B','C','D','E','F','G','H','I','J','K','L','M','N','O','P',
   'Q','R','S','T','U','V','W','X','Y','Z',
   'a','b','c','d','e','f','g','h','i','j','k','l','m','n','o','p',
   'q','r','s','t','u','v','w','x','y','z',
   '0','1','2','3','4','5','6','7','8','9','+','/']

/-- Character for a 6-bit group. -/
def sextetChar (n : Nat) : Char := b64Alphabet.getD n 'A'

/-- 6-bit group for an alphabet character (inverse of `sextetChar`). -/
def charSextet (c : Char) : Nat := b64Alphabet.indexOf c

/-- `encode` (App.tsx line 15): builds the binary string of the byte
array and base64-encodes it with `btoa`, modelled here as the standard
base64 encoding of the byte list, with `=` padding. -/
def encode : List Nat → List Char
  | [] => []
  | [a] => [sextetChar (a / 4), sextetChar (a % 4 * 16), '=', '=']
  | [a, b] => [sextetChar (a / 4), sextetChar (a % 4 * 16 + b / 16),
               sextetChar (b % 16 * 4), '=']
  | a :: b :: c :: rest =>
      sextetChar (a / 4) :: sextetChar (a % 4 * 16 + b / 16) ::
      sextetChar (b % 16 * 4 + c / 64) :: sextetChar (c % 64) :: encode rest

/-- Regroup a list of 6-bit groups (padding already stripped) into bytes. -/
def decodeGroups : List Nat → List Nat
  | s1 :: s2 :: s3 :: s4 :: rest =>
      (s1 * 4 + s2 / 16) :: (s2 % 16 * 16 + s3 / 4) :: (s3 % 4 * 64 + s4) ::
      decodeGroups rest
  | [s1, s2, s3] => [s1 * 4 + s2 / 16, s2 % 16 * 16 + s3 / 4]
  | [s1, s2] => [s1 * 4 + s2 / 16]
  | _ => []

/-- `decode` (App.tsx line 24): `atob` followed by reading the char codes
into a byte array; modelled as base64 decoding of the character list. -/
def decode (s : List Char) : List Nat :=
  decodeGroups ((s.filter (fun c => c ≠ '=')).map charSextet)

/-! ## 16-bit PCM (App.tsx lines 34-64). -/

/-- JavaScript `ToInt16` wrap-around: reduce an integer modulo 2^16 into
the signed 16-bit range. This is what storing into an `Int16Array` does. -/
def toInt16 (v : Int) : Int := (v + 32768) % 65536 - 32768

/-- JavaScript number-to-integer truncation (toward zero), on rationals. -/
def jsTrunc (q : ℚ) : Int := if 0 ≤ q then ⌊q⌋ else ⌈q⌉

/-- Little-endian byte serialization of a list of 16-bit integers,
as `new Uint8Array(int16.buffer)` views them (App.tsx line 61). -/
def bytesOfInt16s : List Int → List Nat
  | [] => []
  | v :: rest =>
      (v % 65536).toNat % 256 :: (v % 65536).toNat / 256 :: bytesOfInt16s rest

/-- Little-endian 16-bit view of a byte list, as `new Int16Array(data.buffer)`
reads it (App.tsx line 40); a trailing single byte cannot occur because the
`Int16Array` constructor rejects odd buffer lengths. -/
def int16sOfBytes : List Nat → List Int
  | lo :: hi :: rest => toInt16 ((lo : Int) + 256 * hi) :: int16sOfBytes rest
  | _ => []

/-- The wire chunk produced by `createBlobFromAudio` (App.tsx lines 54-64). -/
structure WireBlob where
  data : List Char
  mimeType : String
deriving DecidableEq

/-- Quantization of one captured sample: `int16[i] = data[i] * 32768`
(App.tsx line 58), i.e. scale, truncate toward zero, wrap to 16 bits. -/
def quantizeSample (x : ℚ) : Int := toInt16 (jsTrunc (x * 32768))

/-- `createBlobFromAudio` (App.tsx lines 54-64): quantize every sample to
16-bit PCM, serialize little-endian, base64-encode. -/
def createBlobFromAudio (data : List ℚ) : WireBlob :=
  { data := encode (bytesOfInt16s (data.map quantizeSample)),
    mimeType := "audio/pcm;rate=16000" }

/-- `decodeAudioData` (App.tsx lines 34-51): view the bytes as 16-bit
integers (the `Int16Array` constructor throws on an odd byte length, hence
`none` there), split `frameCount = dataInt16.length / numChannels` frames
(integer division: a trailing partial frame is dropped), and de-interleave
each channel with samples divided by 32768. -/
def decodeAudioData (data : List Nat) (sampleRate : Nat) (numChannels : Nat) :
    Option (List (List ℚ)) :=
  if data.length % 2 = 0 then
    some ((List.range numChannels).map fun channel =>
      (List.range ((int16sOfBytes data).length / numChannels)).map fun i =>
        (((int16sOfBytes data).getD (i * numChannels + channel) 0 : ℚ) / 32768))
  else none

/-! ## Live-session state and events (App.tsx lines 111-124, 437-571).

The `Personality` and `AppMode` enums live in `types.ts`, which is not part
of the provided sources. Modelled from the spec: `AppMode` is a string enum
whose members are the ones referenced by the sources (`Chat`, `CodeWriter`,
`DeepResearch`, `StudyBuddy`, `AstroGuide`, `ImageGen`, `AIDiary`), with one
reserved value (`AIDiary`) excluded from the tool registry; `Personality` is
a string enum of which only the member `Nihara` is referenced. The string
values are taken to be the member names. -/

inductive Personality
  | Nihara
deriving DecidableEq, Repr

/-- `Object.values(Personality)` as strings. -/
def Personality.str : Personality → String
  | .Nihara => "Nihara"

def personalityAll : List Personality := [.Nihara]

def personalityValues : List String := personalityAll.map Personality.str

def parsePersonality (s : String) : Option Personality :=
  personalityAll.find? (fun p => p.str = s)

inductive AppMode
  | Chat
  | CodeWriter
  | DeepResearch
  | StudyBuddy
  | AstroGuide
  | ImageGen
  | AIDiary
deriving DecidableEq, Repr

def AppMode.str : AppMode → String
  | .Chat => "Chat"
  | .CodeWriter => "CodeWriter"
  | .DeepResearch => "DeepResearch"
  | .StudyBuddy => "StudyBuddy"
  | .AstroGuide => "AstroGuide"
  | .ImageGen => "ImageGen"
  | .AIDiary => "AIDiary"

/-- `Object.values(AppMode)`. -/
def appModeAll : List AppMode :=
  [.Chat, .CodeWriter, .DeepResearch, .StudyBuddy, .AstroGuide, .ImageGen, .AIDiary]

def appModeValues : List String := appModeAll.map AppMode.str

def parseAppMode (s : String) : Option AppMode :=
  appModeAll.find? (fun m => m.str = s)

/-- The `enum` of `changeModeDeclaration` (App.tsx line 84):
`Object.values(AppMode).filter(m => m !== AppMode.AIDiary)`. -/
def changeModeEnumValues : List String :=
  (appModeAll.filter (fun m => m ≠ AppMode.AIDiary)).map AppMode.str

/-- The `liveStatus` union (App.tsx line 113). -/
inductive LiveStatus
  | idle
  | listening
  | speaking
  | thinking
deriving DecidableEq, Repr

/-- `liveTranscriptRef` / `liveTranscript` shape (App.tsx lines 116-117). -/
structure Transcript where
  user : String
  assistant : String
deriving DecidableEq, Repr

/-- One scheduled `AudioBufferSourceNode`: its identity, the time passed to
`source.start` and the decoded buffer's duration. -/
structure AudioSource where
  handle : Nat
  startAt : ℚ
  duration : ℚ
deriving DecidableEq, Repr

/-- The `args` object of a live tool call; the dispatcher reads
`fc.args.personality` or `fc.args.mode` (App.tsx lines 505, 511). -/
structure ToolArgs where
  personality : Option String
  mode : Option String
deriving DecidableEq, Repr

/-- A `functionCall` of `message.toolCall.functionCalls`. -/
structure ToolCall where
  id : Nat
  name : String
  args : ToolArgs
deriving DecidableEq, Repr

/-- A `sendToolResponse` payload (App.tsx line 521). -/
structure ToolResponse where
  id : Nat
  name : String
  result : String
deriving DecidableEq, Repr

/-- The parts of a `LiveServerMessage` read by `onmessage` (App.tsx
lines 492-556): interruption flag, tool-call batch, the two transcription
fragments, turn-complete flag, inline base64 audio payload. An absent
`toolCall` is the empty batch. -/
structure ServerMessage where
  interrupted : Bool
  toolCalls : List ToolCall
  outputTranscription : Option String
  inputTranscription : Option String
  turnComplete : Bool
  audioData : Option (List Char)
deriving DecidableEq, Repr

/-- The mutable state the live `onmessage` handler reads and writes. -/
structure AppState where
  currentPersonality : Personality
  currentMode : AppMode
  liveStatus : LiveStatus
  liveActionStatus : Option String
  transcriptRef : Transcript
  liveTranscript : Transcript
  audioSources : List AudioSource
  nextStartTime : ℚ
deriving DecidableEq, Repr

/-- State right after `handleToggleLiveMode` opens a session (App.tsx
lines 449-450): status listening, no scheduled audio, fresh transcripts. -/
def initialLiveState : AppState :=
  { currentPersonality := .Nihara
    currentMode := .Chat
    liveStatus := .listening
    liveActionStatus := none
    transcriptRef := ⟨"", ""⟩
    liveTranscript := ⟨"", ""⟩
    audioSources := []
    nextStartTime := 0 }

/-- One iteration of the tool-call loop body (App.tsx lines 503-520)
without the acknowledgement: `result` stays `"ok"`; a recognized enum value
updates the personality or mode and sets the transient action status. -/
def applyToolCallState (st : AppState) (fc : ToolCall) : AppState :=
  if fc.name = "changePersonality" then
    match fc.args.personality with
    | some s =>
        if s ∈ personalityValues then
          { st with currentPersonality := (parsePersonality s).getD st.currentPersonality
                    liveActionStatus := some ("Personality set to " ++ s ++ ".") }
        else st
    | none => st
  else if fc.name = "changeMode" then
    match fc.args.mode with
    | some s =>
        if s ∈ appModeValues then
          { st with currentMode := (parseAppMode s).getD st.currentMode
                    liveActionStatus := some ("Mode changed to " ++ s ++ ".") }
        else st
    | none => st
  else st

/-- The `for (const fc of message.toolCall.functionCalls)` loop (App.tsx
lines 502-522): every call is dispatched and acknowledged exactly once with
`{ id: fc.id, name: fc.name, response: { result: "ok" } }`. -/
def dispatchToolCalls (st : AppState) : List ToolCall → AppState × List ToolResponse
  | [] => (st, [])
  | fc :: rest =>
      let next := dispatchToolCalls (applyToolCallState st fc) rest
      (next.1, ⟨fc.id, fc.name, "ok"⟩ :: next.2)

/-- Duration of the decoded audio buffer: frame count over the 24 kHz
output rate (`ctx.createBuffer(1, dataInt16.length / 1, 24000)`). -/
def chunkDur (b64 : List Char) : ℚ := (((decode b64).length / 2 : Nat) : ℚ) / 24000

/-- The inbound-audio branch (App.tsx lines 538-556): status `speaking`,
clamp the next start offset to the clock, then (if decoding succeeds)
start a new source at the offset and advance it by the chunk's duration. -/
def applyAudio (st : AppState) (b64 : List Char) (now : ℚ) (handle : Nat) :
    AppState :=
  let st1 := { st with liveStatus := .speaking
                       nextStartTime := max st.nextStartTime now }
  match decodeAudioData (decode b64) 24000 1 with
  | none => st1
  | some _ =>
      { st1 with nextStartTime := st1.nextStartTime + chunkDur b64
                 audioSources :=
                   st1.audioSources ++ [⟨handle, st1.nextStartTime, chunkDur b64⟩] }

/-- Result of one `onmessage` invocation: the new state, the tool responses
sent, and the handles of sources stopped by an interruption flush. -/
structure StepResult where
  state : AppState
  toolResponses : List ToolResponse
  stoppedHandles : List Nat
deriving DecidableEq, Repr

/-- The live `onmessage` handler (App.tsx lines 492-557), with its four
sections in source order: interruption flush; tool-call dispatch; transcript
accumulation with turn-complete publication; inbound audio scheduling.
`now` is `ctx.currentTime` and `handle` identifies the freshly created
buffer source. -/
def onmessage (st : AppState) (msg : ServerMessage) (now : ℚ) (handle : Nat) :
    StepResult :=
  let stopped := if msg.interrupted then st.audioSources.map AudioSource.handle else []
  let st1 :=
    if msg.interrupted then
      { st with liveStatus := .listening, audioSources := [], nextStartTime := 0 }
    else st
  let dispatched := dispatchToolCalls st1 msg.toolCalls
  let st2 := dispatched.1
  let st3 :=
    match msg.outputTranscription with
    | some t => { st2 with transcriptRef := ⟨st2.transcriptRef.user, st2.transcriptRef.assistant ++ t⟩ }
    | none => st2
  let st4 :=
    match msg.inputTranscription with
    | some t => { st3 with transcriptRef := ⟨st3.transcriptRef.user ++ t, st3.transcriptRef.assistant⟩ }
    | none => st3
  let st5 :=
    if msg.turnComplete then
      let published := { st4 with liveTranscript := st4.transcriptRef, transcriptRef := ⟨"", ""⟩ }
      if published.audioSources.length = 0 then { published with liveStatus := .listening }
      else published
    else { st4 with liveTranscript := st4.transcriptRef }
  let st6 :=
    match msg.audioData with
    | some b64 => if b64 = [] then st5 else applyAudio st5 b64 now handle
    | none => st5
  ⟨st6, dispatched.2, stopped⟩

/-- The `ended` listener of a scheduled source (App.tsx lines 547-552):
drop it from the active set; when the set empties, go back to listening. -/
def onSourceEnded (st : AppState) (handle : Nat) : AppState :=
  let remaining := st.audioSources.filter (fun s => s.handle ≠ handle)
  if remaining.length = 0 then
    { st with audioSources := remaining, liveStatus := .listening }
  else { st with audioSources := remaining }

/-- A pure interruption signal. -/
def interruptMsg : ServerMessage := ⟨true, [], none, none, false, none⟩

/-- A pure inbound-audio message. -/
def audioMsg (b64 : List Char) : ServerMessage := ⟨false, [], none, none, false, some b64⟩

/-- A pure transcript-fragment message. -/
def transcriptMsg (o i : Option String) : ServerMessage := ⟨false, [], o, i, false, none⟩

/-- A pure turn-complete message. -/
def turnCompleteMsg : ServerMessage := ⟨false, [], none, none, true, none⟩

/-- A pure tool-call message. -/
def toolMsg (cs : List ToolCall) : ServerMessage := ⟨false, cs, none, none, false, none⟩

/-! ## Event traces over a live session -/

/-- An observable event of one live session: a server message (with the
output clock reading and the handle of the source it may create), or the
natural completion of a scheduled source. -/
inductive LiveEvent
  | server (m : ServerMessage) (now : ℚ) (handle : Nat)
  | sourceEnded (handle : Nat)

def stepEvent (st : AppState) : LiveEvent → AppState
  | .server m now h => (onmessage st m now h).state
  | .sourceEnded h => onSourceEnded st h

/-- All states a run passes through, the start state included. -/
def stateTrace (st : AppState) : List LiveEvent → List AppState
  | [] => [st]
  | e :: es => st :: stateTrace (stepEvent st e) es

/-- Number of adjacent speaking-to-listening transitions in a status list. -/
def countSpeakListen : List LiveStatus → Nat
  | a :: b :: rest =>
      (if a = LiveStatus.speaking ∧ b = LiveStatus.listening then 1 else 0) +
        countSpeakListen (b :: rest)
  | _ => 0

/-- Chunks delivered back-to-back: each arrives while the previously
scheduled backlog has not yet drained (its clock reading is at most the
next start offset current at that point). -/
def chunkBackToBack (T : ℚ) : List (List Char × ℚ) → Prop
  | [] => True
  | (c, now) :: rest => now ≤ T ∧ chunkBackToBack (T + chunkDur c) rest

/-- Deliver a sequence of inbound audio messages (chunk, clock reading). -/
def runChunks (st : AppState) (chunks : List (List Char × ℚ)) : AppState :=
  chunks.foldl (fun s p => (onmessage s (audioMsg p.1) p.2 0).state) st

/-- Start times of a gapless schedule beginning at `T` with durations `ds`. -/
def schedStarts (T : ℚ) : List ℚ → List ℚ
  | [] => []
  | d :: rest => T :: schedStarts (T + d) rest

/-- Concatenation of a role's transcript fragments (absent fragment = ""). -/
def joinFrags : List (Option String) → String
  | [] => ""
  | o :: rest => o.getD "" ++ joinFrags rest

/-- Deliver a sequence of transcript-fragment messages
(output fragment, input fragment). -/
def runFrags (st : AppState) (frags : List (Option String × Option String)) :
    AppState :=
  frags.foldl (fun s p => (onmessage s (transcriptMsg p.1 p.2) 0 0).state) st

/-! ## Companion state (App.tsx lines 239-246, 334-343) -/

/-- The pieces of application state `processAiInteraction` updates. -/
structure CompanionState where
  bondLevel : Int
  memories : List String
deriving DecidableEq, Repr

/-- `processAiInteraction` (App.tsx lines 334-343), with the results of the
external `analyzeSentiment` and `extractMemory` calls passed in: a positive
sentiment increments the bond level, a negative one decrements it clamped at
zero; a truthy extracted memory is appended and the list cut to its last 20
entries (`[...m, memory].slice(-20)`). The empty string stands for a falsy
extraction result. -/
def processAiInteraction (st : CompanionState) (sentiment memory : String) :
    CompanionState :=
  let b :=
    if sentiment = "positive" then st.bondLevel + 1
    else if sentiment = "negative" then max 0 (st.bondLevel - 1)
    else st.bondLevel
  let ms :=
    if memory = "" then st.memories
    else (st.memories ++ [memory]).drop ((st.memories ++ [memory]).length - 20)
  ⟨b, ms⟩

/-- The mood derivation effect (App.tsx lines 240-246). -/
def deriveMood (bondLevel : Int) : String :=
  if bondLevel > 5 then "Joyful"
  else if bondLevel > 0 then "Content"
  else if bondLevel < -5 then "Concerned"
  else if bondLevel < 0 then "Pensive"
  else "Neutral"

/-- A sequence of chat interactions, each with its sentiment-analysis and
memory-extraction result. -/
def runInteractions (st : CompanionState) (events : List (String × String)) :
    CompanionState :=
  events.foldl (fun s e => processAiInteraction s e.1 e.2) st

/-! ## Codec lemmas -/

lemma charSextet_sextetChar : ∀ n < 64, charSextet (sextetChar n) = n := by decide

lemma sextetChar_ne_pad : ∀ n < 64, sextetChar n ≠ '=' := by decide

/-- Base64 round trip: `decode` inverts `encode` on genuine bytes. -/
lemma decode_encode (bs : List Nat) (h : ∀ b ∈ bs, b < 256) :
    decode (encode bs) = bs := by
  induction bs using encode.induct with
  | case1 => rfl
  | case2 a =>
      have ha : a < 256 := h a (by simp)
      have n1 : a / 4 < 64 := by omega
      have n2 : a % 4 * 16 < 64 := by omega
      have e1 := charSextet_sextetChar _ n1
      have e2 := charSextet_sextetChar _ n2
      have p1 := sextetChar_ne_pad _ n1
      have p2 := sextetChar_ne_pad _ n2
      simp [encode, decode, List.filter_cons, p1, p2, e1, e2, decodeGroups]
      omega
  | case3 a b =>
      have ha : a < 256 := h a (by simp)
      have hb : b < 256 := h b (by simp)
      have n1 : a / 4 < 64 := by omega
      have n2 : a % 4 * 16 + b / 16 < 64 := by omega
      have n3 : b % 16 * 4 < 64 := by omega
      have e1 := charSextet_sextetChar _ n1
      have e2 := charSextet_sextetChar _ n2
      have e3 := charSextet_sextetChar _ n3
      have p1 := sextetChar_ne_pad _ n1
      have p2 := sextetChar_ne_pad _ n2
      have p3 := sextetChar_ne_pad _ n3
      simp [encode, decode, List.filter_cons, p1, p2, p3, e1, e2, e3, decodeGroups]
      constructor
      · omega
      · omega
  | case4 a b c rest ih =>
      have ha : a < 256 := h a (by simp)
      have hb : b < 256 := h b (by simp)
      have hc : c < 256 := h c (by simp)
      have hrest : ∀ x ∈ rest, x < 256 := fun x hx => h x (by simp [hx])
      have n1 : a / 4 < 64 := by omega
      have n2 : a % 4 * 16 + b / 16 < 64 := by omega
      have n3 : b % 16 * 4 + c / 64 < 64 := by omega
      have n4 : c % 64 < 64 := by omega
      have e1 := charSextet_sextetChar _ n1
      have e2 := charSextet_sextetChar _ n2
      have e3 := charSextet_sextetChar _ n3
      have e4 := charSextet_sextetChar _ n4
      have p1 := sextetChar_ne_pad _ n1
      have p2 := sextetChar_ne_pad _ n2
      have p3 := sextetChar_ne_pad _ n3
      have p4 := sextetChar_ne_pad _ n4
      have ihr := ih hrest
      unfold decode at ihr ⊢
      have q1 : (decide (sextetChar (a / 4) ≠ '=')) = true := by simp [p1]
      have q2 : (decide (sextetChar (a % 4 * 16 + b / 16) ≠ '=')) = true := by simp [p2]
      have q3 : (decide (sextetChar (b % 16 * 4 + c / 64) ≠ '=')) = true := by simp [p3]
      have q4 : (decide (sextetChar (c % 64) ≠ '=')) = true := by simp [p4]
      rw [encode]
      simp only [List.filter_cons, q1, q2, q3, q4, if_true, List.map_cons]
      rw [e1, e2, e3, e4, decodeGroups, ihr]
      simp only [List.cons.injEq]
      refine ⟨by omega, by omega, by omega, trivial⟩

/-- `toInt16` always lands in the signed 16-bit range. -/
lemma toInt16_range (v : Int) : -32768 ≤ toInt16 v ∧ toInt16 v < 32768 := by
  unfold toInt16
  omega

/-- `toInt16` is the identity on values already in range. -/
lemma toInt16_eq_self (v : Int) (h1 : -32768 ≤ v) (h2 : v < 32768) :
    toInt16 v = v := by
  unfold toInt16
  omega

/-- The little-endian byte pair of an in-range 16-bit value reads back to it. -/
lemma int16sOfBytes_bytesOfInt16s (vs : List Int)
    (h : ∀ v ∈ vs, -32768 ≤ v ∧ v < 32768) :
    int16sOfBytes (bytesOfInt16s vs) = vs := by
  induction vs with
  | nil => rfl
  | cons v rest ih =>
      have hv := h v (by simp)
      have hrest : ∀ x ∈ rest, -32768 ≤ x ∧ x < 32768 := fun x hx => h x (by simp [hx])
      simp only [bytesOfInt16s, int16sOfBytes, ih hrest, List.cons.injEq, and_true]
      unfold toInt16
      omega

/-- Every serialized byte is a genuine byte. -/
lemma bytesOfInt16s_lt (vs : List Int) : ∀ b ∈ bytesOfInt16s vs, b < 256 := by
  induction vs with
  | nil => simp [bytesOfInt16s]
  | cons v rest ih =>
      intro b hb
      simp only [bytesOfInt16s, List.mem_cons] at hb
      rcases hb with h1 | h1 | h1
      · omega
      · have : ((v % 65536).toNat) < 65536 := by omega
        omega
      · exact ih b h1

lemma bytesOfInt16s_length (vs : List Int) :
    (bytesOfInt16s vs).length = 2 * vs.length := by
  induction vs with
  | nil => rfl
  | cons v rest ih => simp [bytesOfInt16s, ih]; ring

lemma int16sOfBytes_length (l : List Nat) :
    (int16sOfBytes l).length = l.length / 2 := by
  induction l using int16sOfBytes.induct with
  | case1 lo hi rest ih => simp [int16sOfBytes, ih]; omega
  | case2 l hl =>
      match l, hl with
      | [], _ => rfl
      | [a], _ => simp [int16sOfBytes]
      | lo :: hi :: rest, hl => exact (hl lo hi rest rfl).elim

/-- Indexed range view of a map (used to flatten the per-channel loop). -/
lemma range_map_getD {α β : Type} (l : List α) (f : α → β) (d : α) :
    (List.range l.length).map (fun i => f (l.getD i d)) = l.map f := by
  induction l with
  | nil => rfl
  | cons a rest ih =>
      rw [List.length_cons, List.range_succ_eq_map, List.map_cons, List.map_map,
        List.map_cons]
      exact congrArg₂ List.cons rfl ih

/-- Mono decoding of a serialized 16-bit stream divides each value by 32768. -/
lemma decodeAudioData_bytesOfInt16s (vs : List Int) (rate : Nat)
    (h : ∀ v ∈ vs, -32768 ≤ v ∧ v < 32768) :
    decodeAudioData (bytesOfInt16s vs) rate 1 =
      some [vs.map (fun v : Int => ((v : ℚ) / 32768))] := by
  unfold decodeAudioData
  rw [if_pos (by rw [bytesOfInt16s_length]; omega)]
  have r1 : List.range 1 = [0] := rfl
  rw [r1, List.map_cons, List.map_nil, int16sOfBytes_bytesOfInt16s vs h]
  refine congrArg some (congrArg (fun x => [x]) ?_)
  rw [Nat.div_one]
  simp only [mul_one, add_zero]
  exact range_map_getD vs (fun v : Int => ((v : ℚ) / 32768)) 0

/-- Truncation toward zero stays in the 16-bit range on scaled samples. -/
lemma jsTrunc_range (y : ℚ) (h1 : -32768 ≤ y) (h2 : y < 32768) :
    -32768 ≤ jsTrunc y ∧ jsTrunc y < 32768 := by
  unfold jsTrunc
  split
  · constructor
    · exact Int.le_floor.mpr (by exact_mod_cast h1)
    · exact Int.floor_lt.mpr (by exact_mod_cast h2)
  · rename_i hy
    have hy0 : y ≤ 0 := le_of_lt (lt_of_not_le hy)
    have hc0 : ⌈y⌉ ≤ 0 := Int.ceil_le.mpr (by exact_mod_cast hy0)
    have hcl : ((-32768 : Int) : ℚ) ≤ (⌈y⌉ : ℚ) :=
      le_trans (by exact_mod_cast h1) (Int.le_ceil y)
    have : (-32768 : Int) ≤ ⌈y⌉ := by exact_mod_cast hcl
    omega

/-- Truncation toward zero moves a value by less than one. -/
lemma jsTrunc_err (y : ℚ) : |(jsTrunc y : ℚ) - y| ≤ 1 := by
  unfold jsTrunc
  split
  · have hl := Int.floor_le y
    have hu := Int.sub_one_lt_floor y
    rw [abs_le]
    constructor <;> linarith
  · have hl := Int.le_ceil y
    have hu := Int.ceil_lt_add_one y
    rw [abs_le]
    constructor <;> linarith

/-- For samples in [-1, 1) the 16-bit wrap never fires: quantization is
plain truncation of the scaled sample. -/
lemma quantizeSample_eq (x : ℚ) (h1 : -1 ≤ x) (h2 : x < 1) :
    quantizeSample x = jsTrunc (x * 32768) := by
  have hr := jsTrunc_range (x * 32768) (by linarith) (by linarith)
  exact toInt16_eq_self _ hr.1 hr.2

/-- Per-sample round-trip error, valid on [-1, 1). -/
lemma quantizeSample_err (x : ℚ) (h1 : -1 ≤ x) (h2 : x < 1) :
    |((quantizeSample x : ℚ) / 32768) - x| ≤ 1 / 32768 := by
  rw [quantizeSample_eq x h1 h2]
  have herr := jsTrunc_err (x * 32768)
  have heq : ((jsTrunc (x * 32768) : ℚ)) / 32768 - x =
      ((jsTrunc (x * 32768) : ℚ) - x * 32768) / 32768 := by ring
  rw [heq, abs_div, abs_of_pos (by norm_num : (0:ℚ) < 32768)]
  exact (div_le_div_iff_of_pos_right (by norm_num)).mpr herr

/-- The full inbound/outbound chain: base64-decode the blob built by
`createBlobFromAudio`, then `decodeAudioData` at one channel. This holds for
every sample list; quantization (with possible 16-bit wrap) is explicit. -/
lemma decode_createBlob (samples : List ℚ) :
    decodeAudioData (decode (createBlobFromAudio samples).data) 24000 1 =
      some [samples.map (fun x => ((quantizeSample x : ℚ) / 32768))] := by
  unfold createBlobFromAudio
  rw [decode_encode _ (bytesOfInt16s_lt _)]
  rw [decodeAudioData_bytesOfInt16s _ 24000 ?_]
  · rw [List.map_map]
    rfl
  · intro v hv
    rcases List.mem_map.mp hv with ⟨x, _, rfl⟩
    exact toInt16_range _

/-! ## Session helper lemmas -/

/-- A nonempty inbound-audio message whose bytes decode evenly: the handler
marks `speaking`, republishes the partial transcript, schedules one source at
`max nextStartTime now` and advances the offset by the chunk duration. -/
lemma onmessage_audioMsg (st : AppState) (c : List Char) (now : ℚ) (h : Nat)
    (hne : c ≠ []) (heven : (decode c).length % 2 = 0) :
    onmessage st (audioMsg c) now h =
      ⟨{ st with liveStatus := .speaking
                 liveTranscript := st.transcriptRef
                 nextStartTime := max st.nextStartTime now + chunkDur c
                 audioSources := st.audioSources ++
                   [⟨h, max st.nextStartTime now, chunkDur c⟩] },
        [], []⟩ := by
  unfold onmessage audioMsg applyAudio decodeAudioData
  simp [hne, heven, dispatchToolCalls]

/-- A pure interruption message: statuses and scheduler flushed, the partial
transcript republished, every active source reported stopped. -/
lemma onmessage_interruptMsg (st : AppState) (now : ℚ) (h : Nat) :
    onmessage st interruptMsg now h =
      ⟨{ st with liveStatus := .listening
                 liveTranscript := st.transcriptRef
                 audioSources := []
                 nextStartTime := 0 },
        [], st.audioSources.map AudioSource.handle⟩ := by
  unfold onmessage interruptMsg
  simp [dispatchToolCalls]

/-- C1: an interruption signal arriving while chunks are scheduled
(next-start offset positive) stops every active chunk, clears the active
set, resets the next-start offset to zero, and the next chunk scheduled
afterwards starts right at the current clock reading (zero backlog offset),
regardless of the flushed backlog. -/
theorem interrupt_flushes_scheduler (st : AppState) (now now2 : ℚ) (h h2 : Nat)
    (c : List Char) (hb : 0 < st.nextStartTime) (hn : 0 ≤ now2)
    (hne : c ≠ []) (heven : (decode c).length % 2 = 0) :
    (onmessage st interruptMsg now h).stoppedHandles =
        st.audioSources.map AudioSource.handle ∧
    (onmessage st interruptMsg now h).state.audioSources = [] ∧
    (onmessage st interruptMsg now h).state.nextStartTime = 0 ∧
    (onmessage st interruptMsg now h).state.liveStatus = LiveStatus.listening ∧
    (onmessage (onmessage st interruptMsg now h).state (audioMsg c) now2 h2).state.audioSources =
      [⟨h2, now2, chunkDur c⟩] := by
  rw [onmessage_interruptMsg]
  refine ⟨rfl, rfl, rfl, rfl, ?_⟩
  rw [onmessage_audioMsg _ c now2 h2 hne heven]
  simp [max_eq_right hn]

/-- C1 witness. -/
theorem interrupt_flushes_scheduler_witness :
    (0 : ℚ) <
        ({ initialLiveState with
            nextStartTime := 5, audioSources := [⟨9, 1, 2⟩] } : AppState).nextStartTime ∧
      (0 : ℚ) ≤ 4 ∧ encode [0, 0] ≠ [] ∧ (decode (encode [0, 0])).length % 2 = 0 ∧
    ((onmessage { initialLiveState with
        nextStartTime := 5, audioSources := [⟨9, 1, 2⟩] } interruptMsg 7 0).stoppedHandles = [9] ∧
     (onmessage { initialLiveState with
        nextStartTime := 5, audioSources := [⟨9, 1, 2⟩] } interruptMsg 7 0).state.audioSources = [] ∧
     (onmessage { initialLiveState with
        nextStartTime := 5, audioSources := [⟨9, 1, 2⟩] } interruptMsg 7 0).state.nextStartTime = 0 ∧
     (onmessage { initialLiveState with
        nextStartTime := 5, audioSources := [⟨9, 1, 2⟩] } interruptMsg 7 0).state.liveStatus =
        LiveStatus.listening ∧
     (onmessage (onmessage { initialLiveState with
          nextStartTime := 5, audioSources := [⟨9, 1, 2⟩] } interruptMsg 7 0).state
        (audioMsg (encode [0, 0])) 4 3).state.audioSources =
       [⟨3, 4, chunkDur (encode [0, 0])⟩]) := by
  refine ⟨by norm_num, by norm_num, by decide, by decide, ?_⟩
  have := interrupt_flushes_scheduler
    { initialLiveState with nextStartTime := 5, audioSources := [⟨9, 1, 2⟩] }
    7 4 0 3 (encode [0, 0]) (by norm_num) (by norm_num) (by decide) (by decide)
  simpa using this

/-- Folding audio deliveries: each back-to-back chunk is appended to the
active set starting exactly at the current next-start offset, which then
advances by its duration. -/
lemma runChunks_spec (chunks : List (List Char × ℚ)) :
    ∀ st : AppState, chunkBackToBack st.nextStartTime chunks →
      (∀ p ∈ chunks, p.1 ≠ [] ∧ (decode p.1).length % 2 = 0) →
      (runChunks st chunks).audioSources.map AudioSource.startAt =
          st.audioSources.map AudioSource.startAt ++
            schedStarts st.nextStartTime (chunks.map (fun p => chunkDur p.1)) ∧
        (runChunks st chunks).nextStartTime =
          st.nextStartTime + (chunks.map (fun p => chunkDur p.1)).sum := by
  induction chunks with
  | nil => intro st _ _; simp [runChunks, schedStarts]
  | cons p rest ih =>
      rcases p with ⟨c, now⟩
      intro st hbb hwf
      rcases hbb with ⟨hnow, hbb2⟩
      have hw := hwf (c, now) (by simp)
      have hstep := onmessage_audioMsg st c now 0 hw.1 hw.2
      have hrun : runChunks st ((c, now) :: rest) =
          runChunks (onmessage st (audioMsg c) now 0).state rest := rfl
      rw [hrun, hstep]
      have hmax : max st.nextStartTime now = st.nextStartTime := max_eq_left hnow
      have := ih { st with liveStatus := .speaking
                           liveTranscript := st.transcriptRef
                           nextStartTime := max st.nextStartTime now + chunkDur c
                           audioSources := st.audioSources ++
                             [⟨0, max st.nextStartTime now, chunkDur c⟩] }
        (by simpa [hmax] using hbb2)
        (fun q hq => hwf q (by simp [hq]))
      rcases this with ⟨h1, h2⟩
      constructor
      · rw [h1]
        simp [hmax, schedStarts]
      · rw [h2]
        simp [hmax]
        ring

/-- Start offsets of a gapless schedule are the partial sums of durations. -/
lemma schedStarts_getD (ds : List ℚ) :
    ∀ (T : ℚ) (i : Nat), i < ds.length →
      (schedStarts T ds).getD i 0 = T + (ds.take i).sum := by
  induction ds with
  | nil => intro T i hi; simp at hi
  | cons d rest ih =>
      intro T i hi
      cases i with
      | zero => simp [schedStarts]
      | succ j =>
          have hj : j < rest.length := by simpa using hi
          have := ih (T + d) j hj
          simp only [schedStarts, List.getD_cons_succ, List.take_succ_cons,
            List.sum_cons, this]
          ring

/-- C2: from a fresh scheduler whose next-start offset equals the current
clock reading, chunks delivered back-to-back without interruption are
scheduled at `startAt = max(nextStartOffset, currentClockTime)`; the offset
advances by each chunk's duration, and the i-th chunk's start offset is the
clock origin plus the sum of the previous durations — gapless and
non-overlapping. -/
theorem gapless_scheduling (st : AppState) (t : ℚ) (chunks : List (List Char × ℚ))
    (hfresh : st.audioSources = []) (ht : st.nextStartTime = t)
    (hbb : chunkBackToBack t chunks)
    (hwf : ∀ p ∈ chunks, p.1 ≠ [] ∧ (decode p.1).length % 2 = 0) :
    (runChunks st chunks).audioSources.map AudioSource.startAt =
        schedStarts t (chunks.map (fun p => chunkDur p.1)) ∧
    (runChunks st chunks).nextStartTime =
        t + (chunks.map (fun p => chunkDur p.1)).sum ∧
    ∀ i, i < chunks.length →
      (schedStarts t (chunks.map (fun p => chunkDur p.1))).getD i 0 =
        t + ((chunks.map (fun p => chunkDur p.1)).take i).sum := by
  have := runChunks_spec chunks st (by rw [ht]; exact hbb) hwf
  rcases this with ⟨h1, h2⟩
  refine ⟨?_, ?_, ?_⟩
  · rw [h1, hfresh, ht]; simp
  · rw [h2, ht]
  · intro i hi
    exact schedStarts_getD _ t i (by simpa using hi)

/-- C2 witness: two chunks delivered at clock 0 from a fresh scheduler. -/
theorem gapless_scheduling_witness :
    (initialLiveState.audioSources = [] ∧ initialLiveState.nextStartTime = 0 ∧
      chunkBackToBack 0 [(encode [0, 0, 0, 0], 0), (encode [0, 0], 0)] ∧
      (∀ p ∈ [(encode [0, 0, 0, 0], (0:ℚ)), (encode [0, 0], 0)],
        p.1 ≠ [] ∧ (decode p.1).length % 2 = 0)) ∧
    ((runChunks initialLiveState
        [(encode [0, 0, 0, 0], 0), (encode [0, 0], 0)]).audioSources.map
          AudioSource.startAt =
        schedStarts 0 ([(encode [0, 0, 0, 0], (0:ℚ)), (encode [0, 0], 0)].map
          (fun p => chunkDur p.1)) ∧
      (runChunks initialLiveState
        [(encode [0, 0, 0, 0], 0), (encode [0, 0], 0)]).nextStartTime =
        0 + ([(encode [0, 0, 0, 0], (0:ℚ)), (encode [0, 0], 0)].map
          (fun p => chunkDur p.1)).sum ∧
      ∀ i, i < ([(encode [0, 0, 0, 0], (0:ℚ)), (encode [0, 0], 0)]).length →
        (schedStarts 0 ([(encode [0, 0, 0, 0], (0:ℚ)), (encode [0, 0], 0)].map
          (fun p => chunkDur p.1))).getD i 0 =
          0 + (([(encode [0, 0, 0, 0], (0:ℚ)), (encode [0, 0], 0)].map
            (fun p => chunkDur p.1)).take i).sum) := by
  constructor
  · refine ⟨rfl, rfl, ?_, by decide⟩
    refine ⟨le_refl 0, ?_, trivial⟩
    have : (0:ℚ) ≤ chunkDur (encode [0, 0, 0, 0]) := by
      unfold chunkDur
      positivity
    linarith
  · exact gapless_scheduling initialLiveState 0
      [(encode [0, 0, 0, 0], 0), (encode [0, 0], 0)] rfl rfl
      (by
        refine ⟨le_refl 0, ?_, trivial⟩
        have : (0:ℚ) ≤ chunkDur (encode [0, 0, 0, 0]) := by
          unfold chunkDur
          positivity
        linarith)
      (by decide)

/-- Every dispatched call is acknowledged exactly once, in order, with its
own id and the constant result `"ok"` (the source never reassigns `result`). -/
lemma dispatchToolCalls_responses (cs : List ToolCall) :
    ∀ st : AppState, (dispatchToolCalls st cs).2 =
      cs.map (fun fc => ⟨fc.id, fc.name, "ok"⟩) := by
  induction cs with
  | nil => intro st; rfl
  | cons fc rest ih => intro st; simp [dispatchToolCalls, ih]

/-- A call whose argument is not a recognized enum member (or whose name is
not in the registry) leaves the state untouched. -/
lemma applyToolCallState_unrecognized (st : AppState) (fc : ToolCall)
    (hp : ∀ s, fc.args.personality = some s → s ∉ personalityValues)
    (hm : ∀ s, fc.args.mode = some s → s ∉ appModeValues) :
    applyToolCallState st fc = st := by
  by_cases h1 : fc.name = "changePersonality"
  · simp only [applyToolCallState, if_pos h1]
    cases hps : fc.args.personality with
    | none => rfl
    | some s => simp [hp s hps]
  · by_cases h2 : fc.name = "changeMode"
    · simp only [applyToolCallState, if_neg h1, if_pos h2]
      cases hms : fc.args.mode with
      | none => rfl
      | some s => simp [hm s hms]
    · simp [applyToolCallState, h1, h2]

lemma dispatchToolCalls_unrecognized (cs : List ToolCall) :
    ∀ st : AppState,
      (∀ fc ∈ cs, (∀ s, fc.args.personality = some s → s ∉ personalityValues) ∧
        (∀ s, fc.args.mode = some s → s ∉ appModeValues)) →
      (dispatchToolCalls st cs).1 = st := by
  induction cs with
  | nil => intro st _; rfl
  | cons fc rest ih =>
      intro st hall
      have h0 := hall fc (by simp)
      have : applyToolCallState st fc = st :=
        applyToolCallState_unrecognized st fc h0.1 h0.2
      simp only [dispatchToolCalls, this]
      exact ih st (fun q hq => hall q (by simp [hq]))

lemma applyAudio_currentMode (st : AppState) (c : List Char) (now : ℚ) (h : Nat) :
    (applyAudio st c now h).currentMode = st.currentMode := by
  unfold applyAudio
  split <;> rfl

lemma applyAudio_currentPersonality (st : AppState) (c : List Char) (now : ℚ)
    (h : Nat) : (applyAudio st c now h).currentPersonality = st.currentPersonality := by
  unfold applyAudio
  split <;> rfl

/-- C4: every inbound tool invocation — recognized or not — is acknowledged
exactly once with its original id and the generic success result `"ok"`
(unconditionally); and when the arguments are not recognized enum members,
personality and mode are left untouched. -/
theorem tool_calls_acked_once_state_preserved (st : AppState) (msg : ServerMessage)
    (now : ℚ) (h : Nat) :
    (onmessage st msg now h).toolResponses =
        msg.toolCalls.map (fun fc => ⟨fc.id, fc.name, "ok"⟩) ∧
    ((∀ fc ∈ msg.toolCalls,
        (∀ s, fc.args.personality = some s → s ∉ personalityValues) ∧
        (∀ s, fc.args.mode = some s → s ∉ appModeValues)) →
      (onmessage st msg now h).state.currentMode = st.currentMode ∧
      (onmessage st msg now h).state.currentPersonality = st.currentPersonality) := by
  obtain ⟨intr, calls, outT, inT, tc, audio⟩ := msg
  refine ⟨?_, fun hargs => ?_⟩
  · simp only [onmessage]
    exact dispatchToolCalls_responses calls _
  · simp only at hargs
    have hd : ∀ st' : AppState, (dispatchToolCalls st' calls).1 = st' :=
      fun st' => dispatchToolCalls_unrecognized calls st' hargs
    refine ⟨?_, ?_⟩
    · cases audio <;> cases intr <;> cases outT <;> cases inT <;> cases tc <;>
        simp [onmessage, hd, applyAudio_currentMode, apply_ite AppState.currentMode]
    · cases audio <;> cases intr <;> cases outT <;> cases inT <;> cases tc <;>
        simp [onmessage, hd, applyAudio_currentPersonality,
          apply_ite AppState.currentPersonality]

/-- C4 witness: `changeMode` with the unrecognized value `"InvalidValue"`. -/
theorem tool_calls_acked_once_state_preserved_witness :
    (∀ fc ∈ (toolMsg [⟨7, "changeMode", ⟨none, some "InvalidValue"⟩⟩]).toolCalls,
      (∀ s, fc.args.personality = some s → s ∉ personalityValues) ∧
      (∀ s, fc.args.mode = some s → s ∉ appModeValues)) ∧
    ((onmessage initialLiveState
        (toolMsg [⟨7, "changeMode", ⟨none, some "InvalidValue"⟩⟩]) 0 0).toolResponses =
        [⟨7, "changeMode", "ok"⟩] ∧
      (onmessage initialLiveState
        (toolMsg [⟨7, "changeMode", ⟨none, some "InvalidValue"⟩⟩]) 0 0).state.currentMode =
        initialLiveState.currentMode ∧
      (onmessage initialLiveState
        (toolMsg [⟨7, "changeMode", ⟨none, some "InvalidValue"⟩⟩]) 0 0).state.currentPersonality =
        initialLiveState.currentPersonality) := by
  have hargs : ∀ fc ∈ (toolMsg [⟨7, "changeMode", ⟨none, some "InvalidValue"⟩⟩]).toolCalls,
      (∀ s, fc.args.personality = some s → s ∉ personalityValues) ∧
      (∀ s, fc.args.mode = some s → s ∉ appModeValues) := by
    intro fc hfc
    simp only [toolMsg, List.mem_singleton] at hfc
    subst hfc
    constructor
    · intro s hs
      exact absurd hs (by simp)
    · intro s hs
      have hs2 : s = "InvalidValue" := by
        have := hs.symm
        injection this
      subst hs2
      decide
  have happ := tool_calls_acked_once_state_preserved initialLiveState
    (toolMsg [⟨7, "changeMode", ⟨none, some "InvalidValue"⟩⟩]) 0 0
  refine ⟨hargs, ?_, (happ.2 hargs).1, (happ.2 hargs).2⟩
  simpa using happ.1

/-- A pure transcript-fragment message appends each fragment to its role's
accumulator and republishes the partial transcript. -/
lemma onmessage_transcriptMsg (st : AppState) (o i : Option String) (now : ℚ)
    (h : Nat) :
    onmessage st (transcriptMsg o i) now h =
      ⟨{ st with
          transcriptRef := ⟨st.transcriptRef.user ++ i.getD "",
            st.transcriptRef.assistant ++ o.getD ""⟩
          liveTranscript := ⟨st.transcriptRef.user ++ i.getD "",
            st.transcriptRef.assistant ++ o.getD ""⟩ },
        [], []⟩ := by
  cases o <;> cases i <;>
    simp [onmessage, transcriptMsg, dispatchToolCalls, String.append_empty]

/-- Folding fragment messages concatenates per-role fragments in order. -/
lemma runFrags_transcriptRef (frags : List (Option String × Option String)) :
    ∀ st : AppState, (runFrags st frags).transcriptRef =
      ⟨st.transcriptRef.user ++ joinFrags (frags.map Prod.snd),
       st.transcriptRef.assistant ++ joinFrags (frags.map Prod.fst)⟩ := by
  induction frags with
  | nil => intro st; simp [runFrags, joinFrags, String.append_empty]
  | cons p rest ih =>
      intro st
      rcases p with ⟨o, i⟩
      have hrun : runFrags st ((o, i) :: rest) =
          runFrags (onmessage st (transcriptMsg o i) 0 0).state rest := rfl
      rw [hrun, onmessage_transcriptMsg st o i 0 0, ih]
      simp [joinFrags, String.append_assoc]

/-- Turn completion publishes the accumulator pair and resets it. -/
lemma onmessage_turnCompleteMsg (st : AppState) (now : ℚ) (h : Nat) :
    (onmessage st turnCompleteMsg now h).state.liveTranscript = st.transcriptRef ∧
    (onmessage st turnCompleteMsg now h).state.transcriptRef = ⟨"", ""⟩ := by
  constructor <;>
    simp [onmessage, turnCompleteMsg, dispatchToolCalls,
      apply_ite AppState.liveTranscript, apply_ite AppState.transcriptRef]

/-- C5: for any interleaving of user and assistant fragments since the last
reset, a turn-complete event publishes the concatenation of each role's
fragments as the snapshot and resets both accumulators to the empty string. -/
theorem turn_complete_snapshot_and_reset (st : AppState)
    (frags : List (Option String × Option String)) (now : ℚ) (h : Nat)
    (h0 : st.transcriptRef = ⟨"", ""⟩) :
    (onmessage (runFrags st frags) turnCompleteMsg now h).state.liveTranscript =
      ⟨joinFrags (frags.map Prod.snd), joinFrags (frags.map Prod.fst)⟩ ∧
    (onmessage (runFrags st frags) turnCompleteMsg now h).state.transcriptRef =
      ⟨"", ""⟩ := by
  have href := runFrags_transcriptRef frags st
  rw [h0] at href
  have htc := onmessage_turnCompleteMsg (runFrags st frags) now h
  refine ⟨?_, htc.2⟩
  rw [htc.1, href]
  simp [String.empty_append]

/-- C5 witness: assistant fragments "Hel", "lo " and user fragment "Hi". -/
theorem turn_complete_snapshot_and_reset_witness :
    initialLiveState.transcriptRef = ⟨"", ""⟩ ∧
    ((onmessage (runFrags initialLiveState
        [(some "Hel", none), (some "lo ", none), (none, some "Hi")])
        turnCompleteMsg 0 0).state.liveTranscript =
      ⟨joinFrags ([(some "Hel", none), (some "lo ", none),
          (none, some "Hi")].map Prod.snd),
        joinFrags ([(some "Hel", none), (some "lo ", none),
          (none, some "Hi")].map Prod.fst)⟩ ∧
     (onmessage (runFrags initialLiveState
        [(some "Hel", none), (some "lo ", none), (none, some "Hi")])
        turnCompleteMsg 0 0).state.transcriptRef = ⟨"", ""⟩) ∧
    joinFrags ([(some "Hel", none), (some "lo ", none),
        (none, some "Hi")].map Prod.snd) = "Hi" ∧
    joinFrags ([(some "Hel", none), (some "lo ", none),
        (none, some "Hi")].map Prod.fst) = "Hello " := by
  refine ⟨rfl, ?_, by decide, by decide⟩
  exact turn_complete_snapshot_and_reset initialLiveState
    [(some "Hel", none), (some "lo ", none), (none, some "Hi")] 0 0 rfl

/-- Turn completion while audio is still active: transcripts are published
and reset, the scheduler and the speaking status are untouched. -/
lemma onmessage_turnCompleteMsg_active (st : AppState) (now : ℚ) (h : Nat)
    (hne : st.audioSources ≠ []) :
    onmessage st turnCompleteMsg now h =
      ⟨{ st with liveTranscript := st.transcriptRef, transcriptRef := ⟨"", ""⟩ },
        [], []⟩ := by
  have hlen : ¬ st.audioSources.length = 0 := by simpa using hne
  unfold onmessage turnCompleteMsg
  simp [dispatchToolCalls, hlen]

/-- C6: after a session opens, three audio chunks arrive back-to-back, a
turn-complete event follows, and the three chunks then finish in order,
exactly one speaking-to-listening transition occurs — at the third chunk's
completion, not at the turn-complete event (the status right after
turn-complete is still `speaking`). -/
theorem single_speaking_to_listening_transition
    (c1 c2 c3 : List Char) (t1 t2 t3 t4 : ℚ) (h1 h2 h3 : Nat)
    (hne1 : c1 ≠ []) (he1 : (decode c1).length % 2 = 0)
    (hne2 : c2 ≠ []) (he2 : (decode c2).length % 2 = 0)
    (hne3 : c3 ≠ []) (he3 : (decode c3).length % 2 = 0)
    (h12 : h1 ≠ h2) (h13 : h1 ≠ h3) (h23 : h2 ≠ h3) :
    (stateTrace initialLiveState
      [.server (audioMsg c1) t1 h1, .server (audioMsg c2) t2 h2,
       .server (audioMsg c3) t3 h3, .server turnCompleteMsg t4 0,
       .sourceEnded h1, .sourceEnded h2, .sourceEnded h3]).map
        AppState.liveStatus =
      [.listening, .speaking, .speaking, .speaking, .speaking, .speaking,
       .speaking, .listening] ∧
    countSpeakListen ((stateTrace initialLiveState
      [.server (audioMsg c1) t1 h1, .server (audioMsg c2) t2 h2,
       .server (audioMsg c3) t3 h3, .server turnCompleteMsg t4 0,
       .sourceEnded h1, .sourceEnded h2, .sourceEnded h3]).map
        AppState.liveStatus) = 1 := by
  have htrace : (stateTrace initialLiveState
      [.server (audioMsg c1) t1 h1, .server (audioMsg c2) t2 h2,
       .server (audioMsg c3) t3 h3, .server turnCompleteMsg t4 0,
       .sourceEnded h1, .sourceEnded h2, .sourceEnded h3]).map
        AppState.liveStatus =
      [.listening, .speaking, .speaking, .speaking, .speaking, .speaking,
       .speaking, .listening] := by
    simp only [stateTrace, stepEvent, List.map_cons, List.map_nil]
    rw [onmessage_audioMsg _ c1 t1 h1 hne1 he1]
    simp only []
    rw [onmessage_audioMsg _ c2 t2 h2 hne2 he2]
    simp only []
    rw [onmessage_audioMsg _ c3 t3 h3 hne3 he3]
    simp only []
    rw [onmessage_turnCompleteMsg_active _ t4 0 (by simp)]
    simp [onSourceEnded, initialLiveState, h12.symm, h13.symm, h23.symm]
  exact ⟨htrace, by rw [htrace]; decide⟩

/-- C6 witness: three concrete chunks with handles 1, 2, 3. -/
theorem single_speaking_to_listening_transition_witness :
    (encode [0, 0] ≠ [] ∧ (decode (encode [0, 0])).length % 2 = 0 ∧
      (1 : Nat) ≠ 2 ∧ (1 : Nat) ≠ 3 ∧ (2 : Nat) ≠ 3) ∧
    ((stateTrace initialLiveState
      [.server (audioMsg (encode [0, 0])) 0 1, .server (audioMsg (encode [0, 0])) 0 2,
       .server (audioMsg (encode [0, 0])) 0 3, .server turnCompleteMsg 0 0,
       .sourceEnded 1, .sourceEnded 2, .sourceEnded 3]).map AppState.liveStatus =
      [.listening, .speaking, .speaking, .speaking, .speaking, .speaking,
       .speaking, .listening] ∧
     countSpeakListen ((stateTrace initialLiveState
      [.server (audioMsg (encode [0, 0])) 0 1, .server (audioMsg (encode [0, 0])) 0 2,
       .server (audioMsg (encode [0, 0])) 0 3, .server turnCompleteMsg 0 0,
       .sourceEnded 1, .sourceEnded 2, .sourceEnded 3]).map AppState.liveStatus) = 1) :=
  ⟨⟨by decide, by decide, by decide, by decide, by decide⟩,
    single_speaking_to_listening_transition (encode [0, 0]) (encode [0, 0])
      (encode [0, 0]) 0 0 0 0 1 2 3 (by decide) (by decide) (by decide) (by decide)
      (by decide) (by decide) (by decide) (by decide) (by decide)⟩

/-- For a pure tool-call message the final mode is the dispatcher's. -/
lemma onmessage_toolMsg_mode (st : AppState) (cs : List ToolCall) (now : ℚ)
    (h : Nat) :
    (onmessage st (toolMsg cs) now h).state.currentMode =
      (dispatchToolCalls st cs).1.currentMode := by
  simp [onmessage, toolMsg, apply_ite AppState.currentMode]

/-- Dispatching `changeMode` with the reserved `AIDiary` value: the guard
`Object.values(AppMode).includes(newM)` does not exclude it, so the mode is
set to `AIDiary`. -/
lemma applyToolCallState_changeMode_AIDiary (st : AppState) (i : Nat) :
    applyToolCallState st ⟨i, "changeMode", ⟨none, some "AIDiary"⟩⟩ =
      { st with currentMode := AppMode.AIDiary,
                liveActionStatus := some ("Mode changed to " ++ "AIDiary" ++ ".") } := by
  have hn1 : ¬ ("changeMode" = "changePersonality") := by decide
  have hmem : "AIDiary" ∈ appModeValues := by decide
  have hparse : parseAppMode "AIDiary" = some AppMode.AIDiary := by decide
  simp [applyToolCallState, hn1, hmem, hparse]

/-- C8 counterexample: dispatching `changeMode` with the reserved diary
value does change the application mode (from `Chat` to `AIDiary`). -/
theorem changeMode_diary_dispatch_mutates_mode :
    (onmessage initialLiveState
      (toolMsg [⟨1, "changeMode", ⟨none, some (AppMode.str AppMode.AIDiary)⟩⟩])
      0 0).state.currentMode = AppMode.AIDiary ∧
    initialLiveState.currentMode ≠ AppMode.AIDiary := by
  constructor
  · have hstr : AppMode.str AppMode.AIDiary = "AIDiary" := rfl
    rw [hstr, onmessage_toolMsg_mode]
    simp [dispatchToolCalls, applyToolCallState_changeMode_AIDiary]
  · decide

/-- C8 (amended): the tool registry's `changeMode` declaration excludes the
reserved `AIDiary` value from its enum, but the dispatcher accepts every
`AppMode` member, so an invocation carrying `AIDiary` does change the
application mode (and is still acknowledged with the generic success
result). -/
theorem changeMode_diary_excluded_from_registry_only :
    AppMode.str AppMode.AIDiary ∉ changeModeEnumValues ∧
    ∀ (st : AppState) (i : Nat) (now : ℚ) (h : Nat),
      (onmessage st
        (toolMsg [⟨i, "changeMode", ⟨none, some (AppMode.str AppMode.AIDiary)⟩⟩])
        now h).state.currentMode = AppMode.AIDiary ∧
      (onmessage st
        (toolMsg [⟨i, "changeMode", ⟨none, some (AppMode.str AppMode.AIDiary)⟩⟩])
        now h).toolResponses = [⟨i, "changeMode", "ok"⟩] := by
  constructor
  · decide
  · intro st i now h
    have hstr : AppMode.str AppMode.AIDiary = "AIDiary" := rfl
    constructor
    · rw [hstr, onmessage_toolMsg_mode]
      simp [dispatchToolCalls, applyToolCallState_changeMode_AIDiary]
    · simp only [onmessage]
      rw [dispatchToolCalls_responses]
      simp [toolMsg]

/-- One interaction keeps a non-negative bond level non-negative. -/
lemma processAiInteraction_bond_nonneg (st : CompanionState) (sm : String × String)
    (h : 0 ≤ st.bondLevel) : 0 ≤ (processAiInteraction st sm.1 sm.2).bondLevel := by
  unfold processAiInteraction
  dsimp only
  split_ifs
  · omega
  · exact le_max_left 0 _
  · exact h

/-- A non-negative bond level never derives the negative moods. -/
lemma deriveMood_nonneg (b : Int) (hb : 0 ≤ b) :
    deriveMood b ≠ "Pensive" ∧ deriveMood b ≠ "Concerned" := by
  unfold deriveMood
  split_ifs <;> first | exact ⟨by decide, by decide⟩ | omega

/-- C9: from a non-negative bond level, any sequence of sentiment updates
applied by `processAiInteraction` keeps the bond level non-negative (the
negative branch clamps at zero), so the mood derivation never produces
`Pensive` or `Concerned`. -/
theorem bond_nonneg_no_negative_moods (st : CompanionState)
    (events : List (String × String)) (h0 : 0 ≤ st.bondLevel) :
    0 ≤ (runInteractions st events).bondLevel ∧
    deriveMood (runInteractions st events).bondLevel ≠ "Pensive" ∧
    deriveMood (runInteractions st events).bondLevel ≠ "Concerned" := by
  have hbond : ∀ (evs : List (String × String)) (s : CompanionState),
      0 ≤ s.bondLevel → 0 ≤ (runInteractions s evs).bondLevel := by
    intro evs
    induction evs with
    | nil => intro s hs; exact hs
    | cons e rest ih =>
        intro s hs
        have hstep := processAiInteraction_bond_nonneg s e hs
        exact ih (processAiInteraction s e.1 e.2) hstep
  have hb := hbond events st h0
  exact ⟨hb, deriveMood_nonneg _ hb⟩

/-- C9 witness: positive then twice negative sentiment from bond level 0. -/
theorem bond_nonneg_no_negative_moods_witness :
    (0 : Int) ≤ (⟨0, []⟩ : CompanionState).bondLevel ∧
    (0 ≤ (runInteractions ⟨0, []⟩
        [("positive", ""), ("negative", ""), ("negative", "")]).bondLevel ∧
      deriveMood (runInteractions ⟨0, []⟩
        [("positive", ""), ("negative", ""), ("negative", "")]).bondLevel ≠ "Pensive" ∧
      deriveMood (runInteractions ⟨0, []⟩
        [("positive", ""), ("negative", ""), ("negative", "")]).bondLevel ≠ "Concerned") :=
  ⟨by decide,
    bond_nonneg_no_negative_moods ⟨0, []⟩
      [("positive", ""), ("negative", ""), ("negative", "")] (by decide)⟩

/-- One interaction keeps the memories list within 20 entries. -/
lemma processAiInteraction_memories_le (st : CompanionState) (sm : String × String)
    (h : st.memories.length ≤ 20) :
    (processAiInteraction st sm.1 sm.2).memories.length ≤ 20 := by
  unfold processAiInteraction
  dsimp only
  split_ifs
  · exact h
  · simp only [List.length_drop]
    omega

/-- C10: `processAiInteraction` truncates the appended memories list with
`slice(-20)`, so from any starting list of at most 20 entries the list never
exceeds 20 entries under any sequence of extractions. -/
theorem memories_never_exceed_twenty (st : CompanionState)
    (events : List (String × String)) (h0 : st.memories.length ≤ 20) :
    (runInteractions st events).memories.length ≤ 20 := by
  induction events generalizing st with
  | nil => exact h0
  | cons e rest ih =>
      have hstep := processAiInteraction_memories_le st e h0
      exact ih (processAiInteraction st e.1 e.2) hstep

/-- C10 witness: twenty-one extractions from an empty list. -/
theorem memories_never_exceed_twenty_witness :
    (⟨0, []⟩ : CompanionState).memories.length ≤ 20 ∧
    (runInteractions ⟨0, []⟩
      (List.replicate 21 ("neutral", "m"))).memories.length ≤ 20 :=
  ⟨by decide, memories_never_exceed_twenty ⟨0, []⟩
    (List.replicate 21 ("neutral", "m")) (by decide)⟩

/-- C3 (amended): for samples in [-1, 1) the decode-after-encode chain
reproduces each sample within 16-bit quantization error (at most 1/32768);
at the closed right endpoint the scaled value 32768 wraps to -32768. -/
theorem roundtrip_within_quantization (samples : List ℚ)
    (hs : ∀ x ∈ samples, -1 ≤ x ∧ x < 1) :
    decodeAudioData (decode (createBlobFromAudio samples).data) 24000 1 =
      some [samples.map (fun x => ((quantizeSample x : ℚ) / 32768))] ∧
    ∀ x ∈ samples, |((quantizeSample x : ℚ) / 32768) - x| ≤ 1 / 32768 := by
  refine ⟨decode_createBlob samples, ?_⟩
  intro x hx
  exact quantizeSample_err x (hs x hx).1 (hs x hx).2

/-- C3 witness: samples 1/2 and -1/3. -/
theorem roundtrip_within_quantization_witness :
    (∀ x ∈ [(1 : ℚ)/2, -1/3], -1 ≤ x ∧ x < 1) ∧
    (decodeAudioData (decode (createBlobFromAudio [(1 : ℚ)/2, -1/3]).data) 24000 1 =
      some [([(1 : ℚ)/2, -1/3]).map (fun x => ((quantizeSample x : ℚ) / 32768))] ∧
     ∀ x ∈ [(1 : ℚ)/2, -1/3],
       |((quantizeSample x : ℚ) / 32768) - x| ≤ 1 / 32768) :=
  ⟨by intro x hx; fin_cases hx <;> norm_num,
    roundtrip_within_quantization [(1 : ℚ)/2, -1/3]
      (by intro x hx; fin_cases hx <;> norm_num)⟩

/-- C3 counterexample: the sample 1 lies in [-1, 1] but round-trips to -1,
an error of 2, far beyond 1/32768 (the scaled value 32768 wraps). -/
theorem roundtrip_fails_at_one :
    ((-1 : ℚ) ≤ 1 ∧ (1 : ℚ) ≤ 1) ∧
    decodeAudioData (decode (createBlobFromAudio [1]).data) 24000 1 =
      some [[-1]] ∧
    ¬ |(-1 : ℚ) - 1| ≤ 1 / 32768 := by
  refine ⟨by norm_num, ?_, by norm_num⟩
  rw [decode_createBlob]
  norm_num [quantizeSample, jsTrunc, toInt16]

/-- C7 (amended): an even wire byte length always decodes (a trailing
partial frame is dropped by the integer division of the frame count), but
an odd byte length is rejected by the `Int16Array` view construction. -/
theorem decodeAudioData_even_truncates (data : List Nat) (rate c : Nat)
    (h : data.length % 2 = 0) :
    ∃ chans, decodeAudioData data rate c = some chans ∧ chans.length = c ∧
      ∀ ch ∈ chans, ch.length = data.length / 2 / c := by
  have heq : decodeAudioData data rate c =
      some ((List.range c).map fun channel =>
        (List.range ((int16sOfBytes data).length / c)).map fun i =>
          (((int16sOfBytes data).getD (i * c + channel) 0 : ℚ) / 32768)) := by
    unfold decodeAudioData
    rw [if_pos h]
  refine ⟨_, heq, by simp, ?_⟩
  intro ch hch
  rcases List.mem_map.mp hch with ⟨channel, _, rfl⟩
  simp [int16sOfBytes_length]

/-- C7 witness: six bytes at two channels give one frame per channel
(the trailing half frame is dropped), with no error. -/
theorem decodeAudioData_even_truncates_witness :
    ([0, 0, 0, 0, 0, 0] : List Nat).length % 2 = 0 ∧
    (∃ chans, decodeAudioData [0, 0, 0, 0, 0, 0] 24000 2 = some chans ∧
      chans.length = 2 ∧
      ∀ ch ∈ chans, ch.length = ([0, 0, 0, 0, 0, 0] : List Nat).length / 2 / 2) :=
  ⟨by decide, decodeAudioData_even_truncates [0, 0, 0, 0, 0, 0] 24000 2 (by decide)⟩

/-- C7 counterexample: a 3-byte wire chunk (not a multiple of
channelCount * 2 = 2) is rejected with an error, not truncated. -/
theorem decodeAudioData_odd_length_rejected :
    ([0, 0, 0] : List Nat).length % (1 * 2) ≠ 0 ∧
    decodeAudioData [0, 0, 0] 24000 1 = none := by decide

end Nihara
